import Mathlib

/-!
Verification of the nomspectra recalibration module (src/nhsmass/recal.py).

The module is embedded shallowly over exact rationals (ℚ): pandas tables become
lists of row structures, numpy arrays become lists of ℚ, and the imperative
loops of the source become folds.  External numeric collaborators that are not
part of this repository (scipy's gaussian KDE and Savitzky-Golay filter, the
Spectrum class of spectrum.py and the brutto generator, which are not present
under src/) are abstracted as function parameters or modelled from the spec at
their documented interface; everything that recal.py itself computes is
translated concretely.
-/

namespace Nhsmass

/-- Peak is one row of a Spectrum table: a mass and an intensity. -/
structure Peak where
  mass : ℚ
  intensity : ℚ
deriving DecidableEq, Repr

instance : Inhabited Peak := ⟨⟨0, 0⟩⟩

/-- Spectrum models the external peak-list container at its interface: a table
of rows plus a metadata key-value store (`metadata.add` is list append). -/
structure Spectrum where
  table : List Peak
  metadata : List (String × String)
deriving DecidableEq, Repr

/-- ErrRow is one row of an ErrorTable.table: error in ppm for a mass. -/
structure ErrRow where
  mass : ℚ
  ppm : ℚ
deriving DecidableEq, Repr

instance : Inhabited ErrRow := ⟨⟨0, 0⟩⟩

/-- ErrorTable wraps the error table (recal.py line 87-109). -/
structure ErrorTable where
  table : List ErrRow
deriving DecidableEq, Repr

/-- Failure conditions of the density-map builder, named after the spec's error
taxonomy (§7).  In the source these surface as exceptions raised by
scipy.stats.gaussian_kde / numpy and propagate uncaught. -/
inductive RecalError where
  | insufficientData
  | invalidRange
deriving DecidableEq, Repr

/-- Model of np.linspace(a, b, n): n points from a to b inclusive.  For n = 1
numpy returns [a]; in ℚ the division by (n-1) = 0 yields 0, giving [a] too. -/
def linspace (a b : ℚ) (n : ℕ) : List ℚ :=
  (List.range n).map (fun (i : ℕ) => a + (i : ℚ) * (b - a) / ((n : ℚ) - 1))

/-- Model of pandas .min() over a column (source uses err['mass'].min()). -/
def listMin (l : List ℚ) : ℚ :=
  match l with
  | [] => 0
  | h :: t => t.foldl min h

/-- Model of pandas .max() over a column. -/
def listMax (l : List ℚ) : ℚ :=
  match l with
  | [] => 0
  | h :: t => t.foldl max h

/-- Model of pandas .mean(): sum divided by length.  pandas returns NaN on an
empty column; in ℚ the quotient 0/0 = 0 stands in for that value (the claims
settled here never depend on the empty case). -/
def listMean (l : List ℚ) : ℚ :=
  l.sum / l.length

/-- Model of pandas Series.quantile(q) with the default linear interpolation:
sort the values, let h = (n-1)q, and interpolate between the two neighbouring
order statistics.  List.insertionSort stands in for the sort. -/
def quantile (q : ℚ) (l : List ℚ) : ℚ :=
  let s := List.insertionSort (· ≤ ·) l
  let h := ((s.length : ℚ) - 1) * q
  let lo := (⌊h⌋).toNat
  s.getD lo 0 + (h - ⌊h⌋) * (s.getD (lo + 1) 0 - s.getD lo 0)

/-- Model of np.searchsorted(l, x, side='left') on an ascending-sorted list:
the index of the first element that is not < x, i.e. the insertion point. -/
def searchsorted (l : List ℚ) (x : ℚ) : ℕ :=
  match l with
  | [] => 0
  | h :: t => if h < x then searchsorted t x + 1 else 0

/-- Nearest-neighbour index used by md_error_map (recal.py lines 160-162):
binary search, then step one left when the left neighbour is strictly closer
(or when the insertion point fell past the end of the array). -/
def nearestIdx (masses : List ℚ) (mz : ℚ) : ℕ :=
  let idx := searchsorted masses mz
  if 0 < idx ∧ (idx = masses.length ∨ |mz - masses.getD (idx - 1) 0| < |mz - masses.getD idx 0|)
  then idx - 1 else idx

/-- Candidate masses of md_error_map (recal.py lines 146-149): sort by
intensity descending, cap at the 1000 most intense, then re-sort by mass.
List.insertionSort (a stable sort) models pandas sort_values; pandas' default
quicksort is unstable, so the order among equal intensities is unspecified in
the source and fixed here by stability. -/
def mdCandidates (tbl : List Peak) : List ℚ :=
  let data := List.insertionSort (fun p q => q.intensity ≤ p.intensity) tbl
  let data := if 1000 < data.length then data.take 1000 else data
  (List.insertionSort (fun p q => p.mass ≤ q.mass) data).map (·.mass)

/-- Mass-difference error map (recal.py lines 143-167).  `dif` is the
deduplicated difference set; in the source it is produced by
gen_from_brutto (brutto.py, not under src/) scaled by 1..9 and np.unique, and
is kept abstract here.  `masses` is taken from the table before any sorting. -/
def md_error_map (dif : List ℚ) (spec : Spectrum) (ppm : ℚ) : List (ℚ × ℚ) :=
  let masses := spec.table.map (·.mass)
  let cands := mdCandidates spec.table
  cands.foldl (fun de m =>
    dif.foldl (fun de2 d =>
      let mz := m + d
      let idx := nearestIdx masses mz
      if |masses.getD idx 0 - mz| / mz * 1000000 ≤ ppm
      then de2 ++ [(m, (masses.getD idx 0 - mz) / mz * 1000000)]
      else de2) de) []

/-- Modelled from the spec: the density-map builder (recal.py lines 232-281)
delegates the estimate itself to scipy.stats.gaussian_kde, which is not part
of this repository.  Per §4.2 of the spec the call fails for a scatter of
fewer than 2 points (non-degenerate covariance is required) and for a
degenerate mass range (all masses equal); otherwise it produces the 100x100
grid, abstracted here as the function parameter `kde`. -/
def kernel_density_map (kde : List (ℚ × ℚ) → List (List ℚ)) (df_error : List (ℚ × ℚ)) :
    Except RecalError (List (List ℚ)) :=
  if df_error.length < 2 then .error .insufficientData
  else if listMin (df_error.map (·.1)) = listMax (df_error.map (·.1)) then .error .invalidRange
  else .ok (kde df_error)

/-- Ridge value of one density column (recal.py lines 199-202): the mean of the
ppm axis positions whose density strictly exceeds the column's 95th
percentile. -/
def ridgeCol (idxVals col : List ℚ) : ℚ :=
  let thr := quantile (95 / 100) col
  listMean (((idxVals.zip col).filter (fun p => thr < p.2)).map (·.1))

/-- Ridge extraction (recal.py lines 175-230).  The DataFrame's columns are the
transpose of the grid; the ppm axis index is np.linspace(3, -3, 100).  The
Savitzky-Golay smoothing (scipy, window 31, order 5) is abstracted as the
parameter `savgol`.  After smoothing, the mass axis is re-anchored to
np.linspace(min mass, max mass, 100) and the first curve value is subtracted
from the whole ppm column. -/
def fit_kernel (savgol : List ℚ → List ℚ) (f : List (List ℚ)) (mass : List ℚ) : List ErrRow :=
  let cols := f.transpose
  let raw := cols.map (ridgeCol (linspace 3 (-3) 100))
  let sm := savgol raw
  let ms := linspace (listMin mass) (listMax mass) 100
  let pp := sm.map (fun v => v - sm.getD 0 0)
  (ms.zip pp).map (fun p => ⟨p.1, p.2⟩)

/-- Piecewise-linear interpolation with linear extrapolation, the model of
scipy.interpolate.interp1d(..., bounds_error=False, fill_value='extrapolate')
for kind='linear': locate x by searchsorted, clip the segment index to
[1, n-1], and evaluate the segment line through the two bracketing points. -/
def interpEval (pts : List ErrRow) (x : ℚ) : ℚ :=
  let xs := pts.map (·.mass)
  let idx := min (max (searchsorted xs x) 1) (xs.length - 1)
  let lo := pts.getD (idx - 1) default
  let hi := pts.getD idx default
  (hi.ppm - lo.ppm) / (hi.mass - lo.mass) * (x - lo.mass) + lo.ppm

/-- Extrapolation of an error table (recal.py lines 427-452): a fresh table of
100 linearly spaced masses over the requested range (default: the table's own
mass range), with ppm values interpolated/extrapolated from the source rows. -/
def extrapolate (pts : List ErrRow) (ranges : Option (ℚ × ℚ)) : List ErrRow :=
  let r : ℚ × ℚ := match ranges with
    | none => (listMin (pts.map (·.mass)), listMax (pts.map (·.mass)))
    | some rr => rr
  (linspace r.1 r.2 100).map (fun x => ⟨x, interpEval pts x⟩)

/-- Modelled from the spec: the Spectrum operations used by recal.py live in
spectrum.py, which is not under src/.  Per §4.5/§6 of the spec they are:
formula assignment, theoretical-mass and relative-error computation, the
rel_error column of a table, the (mass, rel_error) pairs of the assigned rows
after dropna, and the drop_unassigned view. -/
structure SpecOps where
  assign : Spectrum → Spectrum
  calcMass : Spectrum → Spectrum
  calcError : Spectrum → Spectrum
  dropUnassigned : Spectrum → Spectrum
  relError : Spectrum → List ℚ
  errorScatter : Spectrum → List (ℚ × ℚ)

/-- Zero-shift of an error table (recal.py lines 463-479): subtract the mean
relative error of the assigned, non-dropped peaks of `spec` from every ppm
value.  The source deep-copies before mutating, so the input table is kept. -/
def zeroshift (ops : SpecOps) (tbl : List ErrRow) (spec : Spectrum) : List ErrRow :=
  let mean_error := listMean (ops.relError (ops.calcError (ops.dropUnassigned spec)))
  tbl.map (fun r => ⟨r.mass, r.ppm - mean_error⟩)

/-- Assignment-based error estimation (recal.py lines 283-325): assign, derive
(mass, -rel_error) pairs, build the density map and ridge curve, extrapolate
to the input spectrum's observed mass range, then zero-shift against the
assigned spectrum. -/
def assign_error (ops : SpecOps) (kde : List (ℚ × ℚ) → List (List ℚ))
    (savgol : List ℚ → List ℚ) (spec : Spectrum) : Except RecalError ErrorTable :=
  let spectr := ops.calcError (ops.calcMass (ops.assign spec))
  let error_table := (ops.errorScatter spectr).map (fun p => (p.1, -p.2))
  match kernel_density_map kde error_table with
  | .error e => .error e
  | .ok kdm =>
    let err := fit_kernel savgol kdm (((ops.dropUnassigned spectr).table).map (·.mass))
    let c1 := extrapolate err
      (some (listMin (spec.table.map (·.mass)), listMax (spec.table.map (·.mass))))
    .ok ⟨zeroshift ops c1 spectr⟩

/-- Mass-difference error estimation (recal.py lines 327-357): mass-difference
map, density map, ridge curve; no extrapolation and no zero-shift. -/
def massdiff_error (kde : List (ℚ × ℚ) → List (List ℚ)) (savgol : List ℚ → List ℚ)
    (dif : List ℚ) (spec : Spectrum) : Except RecalError ErrorTable :=
  match kernel_density_map kde (md_error_map dif spec 3) with
  | .error e => .error e
  | .ok kdm => .ok ⟨fit_kernel savgol kdm (spec.table.map (·.mass))⟩

/-- Matching loop of etalon_error (recal.py lines 403-411): the `cal` cell
starts at 0 and is overwritten by every etalon mass strictly inside the
relative ppm window around `m`, so the last match in list order survives. -/
def calFill (et : List ℚ) (ppm m : ℚ) : ℚ :=
  et.foldl (fun acc x =>
    if m * (1 - ppm / 1000000) < x ∧ x < m * (1 + ppm / 1000000) then x else acc) 0

/-- Scatter built by etalon_error (recal.py lines 398-420): keep peaks above
the `quart` intensity quantile, fill `cal` by the matching loop, keep rows
with cal > 0 and record (mass, (cal - mass)/mass * 1e6). -/
def etalonScatter (et : List ℚ) (peaks : List Peak) (quart ppm : ℚ) : List (ℚ × ℚ) :=
  let thr := quantile quart (peaks.map (·.intensity))
  let df := peaks.filter (fun p => thr < p.intensity)
  ((df.map (fun p => (p.mass, calFill et ppm p.mass))).filter (fun r => 0 < r.2)).map
    (fun r => (r.1, (r.2 - r.1) / r.1 * 1000000))

/-- Etalon-based error estimation (recal.py lines 359-425): scatter from the
etalon match, then density map and ridge curve; no extrapolation, no
zero-shift. -/
def etalon_error (kde : List (ℚ × ℚ) → List (List ℚ)) (savgol : List ℚ → List ℚ)
    (spec etalon : Spectrum) : Except RecalError ErrorTable :=
  match kernel_density_map kde
      (etalonScatter (etalon.table.map (·.mass)) spec.table (9 / 10) 3) with
  | .error e => .error e
  | .ok kdm => .ok ⟨fit_kernel savgol kdm (spec.table.map (·.mass))⟩

/-- Bin edges used by recallibrate (recal.py lines 70-74): wide+1 linearly
spaced edges over the error table's mass range. -/
def binEdges (err : List ErrRow) : List ℚ :=
  linspace (listMin (err.map (·.mass))) (listMax (err.map (·.mass))) (err.length + 1)

/-- Mass update of one bin iteration (recal.py lines 76-80): a peak whose
current mass lies in (a[i], a[i+1]] gains mass * ppm[i] / 1e6. -/
def binStep (a : List ℚ) (err : List ErrRow) (i : ℕ) (m : ℚ) : ℚ :=
  if a.getD i 0 < m ∧ m ≤ a.getD (i + 1) 0
  then m + m * (err.getD i default).ppm / 1000000 else m

/-- Core correction loop of recallibrate (recal.py lines 68-80): for each bin
index i in order, every row of the current table whose mass lies in
(a[i], a[i+1]] is updated in place.  The selection is re-evaluated against the
already-updated table at every i, exactly as the source does. -/
def recallibrateTable (err : List ErrRow) (tbl : List Peak) : List Peak :=
  let a := binEdges err
  (List.range err.length).foldl
    (fun t i => t.map (fun p => ⟨binStep a err i p.mass, p.intensity⟩)) tbl

/-- Collaborators of the top-level entry point that are external to recal.py:
the Spectrum operations, the two scipy numerics, the brutto difference set and
the CSV reader for an etalon path (Spectrum.read_csv). -/
structure Collab where
  ops : SpecOps
  kde : List (ℚ × ℚ) → List (List ℚ)
  savgol : List ℚ → List ℚ
  dif : List ℚ
  readCsv : String → Spectrum

/-- Top-level entry point recallibrate (recal.py lines 30-84): choose or build
an error table, correct the (copied) spectrum bin-wise and record the method
in the metadata.  Value semantics of the embedding model the spec.copy() /
deepcopy calls of the source; exceptions of the pipeline propagate. -/
def recallibrate (c : Collab) (spec : Spectrum) (error_table : Option ErrorTable)
    (how : String) : Except RecalError Spectrum :=
  let etE : Except RecalError ErrorTable :=
    match error_table with
    | some t => .ok t
    | none =>
      if how = "assign" then assign_error c.ops c.kde c.savgol spec
      else if how = "mdm" then massdiff_error c.kde c.savgol c.dif spec
      else etalon_error c.kde c.savgol spec (c.readCsv how)
  match etE with
  | .error e => .error e
  | .ok et =>
    .ok { table := recallibrateTable et.table spec.table,
          metadata := spec.metadata ++ [("recallibrate", how)] }

/-- Trivial instantiation of the Spectrum collaborators, used to evaluate the
pipeline at concrete inputs. -/
def trivialSpecOps : SpecOps :=
  ⟨id, id, id, id, fun _ => [], fun _ => []⟩

/-- Trivial instantiation of all external collaborators. -/
def trivialCollab : Collab :=
  ⟨trivialSpecOps, fun _ => [], id, [], fun _ => ⟨[], []⟩⟩

/-- Collaborators with the one-element difference set {0}, used to drive the
mass-difference matcher into emitting a degenerate scatter. -/
def zeroDifCollab : Collab :=
  ⟨trivialSpecOps, fun _ => [], id, [0], fun _ => ⟨[], []⟩⟩

theorem linspace_length (a b : ℚ) (n : ℕ) : (linspace a b n).length = n := by
  rw [linspace, List.length_map, List.length_range]

theorem linspace_getD (a b : ℚ) {n j : ℕ} (h : j < n) :
    (linspace a b n).getD j 0 = a + j * (b - a) / ((n : ℚ) - 1) := by
  rw [linspace, List.getD_eq_getElem?_getD, List.getElem?_map, List.getElem?_range h]
  rfl

theorem linspace_getD_zero (a b : ℚ) {n : ℕ} (h : 0 < n) :
    (linspace a b n).getD 0 0 = a := by
  rw [linspace_getD a b h]; simp

theorem linspace_getD_top (a b : ℚ) {n : ℕ} (h : 0 < n) :
    (linspace a b (n + 1)).getD n 0 = b := by
  rw [linspace_getD a b (Nat.lt_succ_self n)]
  have hn : ((n : ℚ)) ≠ 0 := Nat.cast_ne_zero.mpr (Nat.pos_iff_ne_zero.mp h)
  push_cast
  field_simp

theorem linspace_getD_mono (a b : ℚ) {n j k : ℕ} (hab : a ≤ b) (hjk : j ≤ k) (hk : k < n) :
    (linspace a b n).getD j 0 ≤ (linspace a b n).getD k 0 := by
  rw [linspace_getD a b (lt_of_le_of_lt hjk hk), linspace_getD a b hk]
  rcases Nat.lt_or_ge n 2 with h2 | h2
  · have hk0 : k = 0 := by omega
    have hj0 : j = 0 := by omega
    subst hk0; subst hj0; exact le_refl _
  · have h3 : (0 : ℚ) < (n : ℚ) - 1 := by
      have : (2 : ℚ) ≤ (n : ℚ) := by exact_mod_cast h2
      linarith
    have h1 : (0 : ℚ) ≤ b - a := sub_nonneg.2 hab
    have h4 : (j : ℚ) ≤ (k : ℚ) := by exact_mod_cast hjk
    have h5 : (j : ℚ) * (b - a) ≤ (k : ℚ) * (b - a) := mul_le_mul_of_nonneg_right h4 h1
    rw [div_eq_mul_inv, div_eq_mul_inv]
    have h6 := mul_le_mul_of_nonneg_right h5 (le_of_lt (inv_pos.mpr h3))
    linarith

theorem foldl_min_le_init (t : List ℚ) (h : ℚ) : t.foldl min h ≤ h := by
  induction t generalizing h with
  | nil => exact le_refl h
  | cons a t ih => exact le_trans (ih (min h a)) (min_le_left h a)

theorem init_le_foldl_max (t : List ℚ) (h : ℚ) : h ≤ t.foldl max h := by
  induction t generalizing h with
  | nil => exact le_refl h
  | cons a t ih => exact le_trans (le_max_left h a) (ih (max h a))

theorem listMin_le_listMax {l : List ℚ} (h : l ≠ []) : listMin l ≤ listMax l := by
  cases l with
  | nil => exact absurd rfl h
  | cons a t =>
    exact le_trans (foldl_min_le_init t a) (init_le_foldl_max t a)

theorem foldl_map_comm {α : Type} (f : ℕ → α → α) (l : List ℕ) (tbl : List α) :
    l.foldl (fun t i => t.map (f i)) tbl = tbl.map (fun x => l.foldl (fun y i => f i y) x) := by
  induction l generalizing tbl with
  | nil => simp
  | cons i l ih =>
    rw [List.foldl_cons, ih, List.map_map]
    rfl

theorem foldl_peak_split (step : ℕ → ℚ → ℚ) (l : List ℕ) (p : Peak) :
    l.foldl (fun q i => (⟨step i q.mass, q.intensity⟩ : Peak)) p
      = ⟨l.foldl (fun m i => step i m) p.mass, p.intensity⟩ := by
  induction l generalizing p with
  | nil => rfl
  | cons i l ih => rw [List.foldl_cons, List.foldl_cons, ih]

theorem recallibrateTable_eq_map (err : List ErrRow) (tbl : List Peak) :
    recallibrateTable err tbl
      = tbl.map (fun p =>
          (⟨(List.range err.length).foldl (fun m i => binStep (binEdges err) err i m) p.mass,
            p.intensity⟩ : Peak)) := by
  unfold recallibrateTable
  rw [foldl_map_comm (fun i p => (⟨binStep (binEdges err) err i p.mass, p.intensity⟩ : Peak))]
  simp only [foldl_peak_split]

theorem foldl_id_of_forall {α β : Type} (g : α → β → α) (l : List β) (x : α)
    (h : ∀ b ∈ l, g x b = x) : l.foldl g x = x := by
  induction l with
  | nil => rfl
  | cons b l ih =>
    rw [List.foldl_cons, h b (List.mem_cons_self b l)]
    exact ih (fun b hb => h b (List.mem_cons_of_mem _ hb))

theorem foldl_choice {α : Type} (p : α → Prop) [DecidablePred p] (l : List α) (a : α) :
    l.foldl (fun acc x => if p x then x else acc) a
      = (l.filter (fun x => decide (p x))).getLastD a := by
  induction l generalizing a with
  | nil => rfl
  | cons h t ih =>
    by_cases hp : p h
    · rw [List.foldl_cons, if_pos hp]
      rw [List.filter_cons_of_pos (by simpa using hp), List.getLastD_cons]
      exact ih h
    · rw [List.foldl_cons, if_neg hp, List.filter_cons_of_neg (by simpa using hp)]
      exact ih a

theorem map_filter_map_eq_filterMap {α β γ : Type} (f : α → β) (p : β → Bool) (g : β → γ)
    (l : List α) :
    ((l.map f).filter p).map g
      = l.filterMap (fun x => if p (f x) then some (g (f x)) else none) := by
  induction l with
  | nil => rfl
  | cons x l ih =>
    by_cases h : p (f x) <;>
      simp [List.filterMap_cons, List.filter_cons, h, ih]

/-- C8: recallibrate with a supplied error table returns a fresh spectrum in
which only the mass values and the metadata entry recording the method differ:
the row count and every intensity are preserved, and the metadata gains
exactly the ('recallibrate', how) record.  The input spectrum, a value in this
embedding, is untouched (the source copies it before mutating). -/
theorem recallibrate_frame (c : Collab) (spec : Spectrum) (et : ErrorTable) (how : String) :
    ∃ s, recallibrate c spec (some et) how = .ok s
      ∧ s.table.length = spec.table.length
      ∧ s.table.map (·.intensity) = spec.table.map (·.intensity)
      ∧ s.metadata = spec.metadata ++ [("recallibrate", how)] := by
  refine ⟨_, rfl, ?_, ?_, rfl⟩
  · rw [recallibrateTable_eq_map]; simp
  · rw [recallibrateTable_eq_map, List.map_map]; rfl

/-- C10: in the etalon matching loop the cal cell is overwritten by each
etalon mass strictly inside the ppm window in iteration order, so it ends as
the last matching etalon mass (0 when there is none), and the scatter emits,
for every surviving peak with a positive cal, exactly the observation computed
from that last match. -/
theorem etalon_last_match (et : List ℚ) (peaks : List Peak) (quart ppm m : ℚ) :
    calFill et ppm m
      = (et.filter (fun x =>
          decide (m * (1 - ppm / 1000000) < x ∧ x < m * (1 + ppm / 1000000)))).getLastD 0
  ∧ etalonScatter et peaks quart ppm
      = (peaks.filter
          (fun p => decide (quantile quart (peaks.map (·.intensity)) < p.intensity))).filterMap
          (fun p =>
            if 0 < calFill et ppm p.mass
            then some (p.mass, (calFill et ppm p.mass - p.mass) / p.mass * 1000000)
            else none) := by
  constructor
  · exact foldl_choice
      (fun x => m * (1 - ppm / 1000000) < x ∧ x < m * (1 + ppm / 1000000)) et 0
  · unfold etalonScatter
    rw [map_filter_map_eq_filterMap
      (fun p : Peak => (p.mass, calFill et ppm p.mass))
      (fun r : ℚ × ℚ => decide (0 < r.2))
      (fun r : ℚ × ℚ => (r.1, (r.2 - r.1) / r.1 * 1000000))]
    simp

/-- C3: the spec's end-to-end scenario is wrong about the third peak: the
curve {(100, 5), (200, -5)} spans (100, 200], the peak at 200.0050 lies above
the curve's maximal mass and is left uncorrected, and the corrected second
peak is exactly 100.01050005, so the output is not [100, 100.0105, 199.9960]. -/
theorem recallibrate_scenario_cex :
    (recallibrate trivialCollab ⟨[⟨100, 10⟩, ⟨100.01, 5⟩, ⟨200.005, 8⟩], []⟩
        (some ⟨[⟨100, 5⟩, ⟨200, -5⟩]⟩) "assign").map (fun s => s.table.map (·.mass))
      ≠ .ok [100, 100.0105, 199.9960] := by
  norm_num [recallibrate, recallibrateTable, binEdges, linspace, listMin, listMax,
    binStep, List.range_succ, Except.map]

/-- C3 (amended): on the scenario input the corrector returns masses
[100, 100.01050005, 200.005]: the peak at exactly 100 is excluded by the
left-open bin boundary, 100.0100 gains +5 ppm of itself, and 200.0050 lies
above the curve's mass range (100, 200] and is left unchanged. -/
theorem recallibrate_scenario_amended :
    (recallibrate trivialCollab ⟨[⟨100, 10⟩, ⟨100.01, 5⟩, ⟨200.005, 8⟩], []⟩
        (some ⟨[⟨100, 5⟩, ⟨200, -5⟩]⟩) "assign").map (fun s => s.table.map (·.mass))
      = .ok [100, 100.01050005, 200.005] := by
  norm_num [recallibrate, recallibrateTable, binEdges, linspace, listMin, listMax,
    binStep, List.range_succ, Except.map]

theorem getD_map_of_lt {α β : Type} (f : α → β) (l : List α) (k : ℕ) (hk : k < l.length)
    (d : α) (d2 : β) : (l.map f).getD k d2 = f (l.getD k d) := by
  rw [List.getD_eq_getElem?_getD, List.getElem?_map, List.getElem?_eq_getElem hk,
    List.getD_eq_getElem?_getD, List.getElem?_eq_getElem hk]
  rfl

theorem binEdges_mono (err : List ErrRow) {j k : ℕ} (hjk : j ≤ k) (hk : k < err.length + 1)
    (hne : err ≠ []) : (binEdges err).getD j 0 ≤ (binEdges err).getD k 0 := by
  unfold binEdges
  exact linspace_getD_mono _ _ (listMin_le_listMax (by simpa using hne)) hjk hk

theorem massFold_in_bin (err : List ErrRow) (i : ℕ) (hi : i < err.length) (m : ℚ)
    (hlo : (binEdges err).getD i 0 < m) (hhi : m ≤ (binEdges err).getD (i + 1) 0)
    (hstay : m + m * (err.getD i default).ppm / 1000000 ≤ (binEdges err).getD (i + 1) 0) :
    (List.range err.length).foldl (fun x j => binStep (binEdges err) err j x) m
      = m + m * (err.getD i default).ppm / 1000000 := by
  have hne : err ≠ [] := by
    intro h; rw [h] at hi; exact absurd hi (by simp)
  have hsplit : List.range err.length
      = (List.range i ++ [i]) ++ (List.range (err.length - (i + 1))).map (fun x => (i + 1) + x) := by
    rw [← List.range_succ, ← List.range_add]
    congr 1
    omega
  rw [hsplit, List.foldl_append, List.foldl_append]
  have step1 : (List.range i).foldl (fun x j => binStep (binEdges err) err j x) m = m := by
    apply foldl_id_of_forall
    intro j hj
    rw [List.mem_range] at hj
    unfold binStep
    rw [if_neg]
    intro hc
    have : (binEdges err).getD (j + 1) 0 ≤ (binEdges err).getD i 0 :=
      binEdges_mono err (by omega) (by omega) hne
    linarith [hc.2]
  rw [step1]
  have step2 : List.foldl (fun x j => binStep (binEdges err) err j x) m [i]
      = m + m * (err.getD i default).ppm / 1000000 := by
    rw [List.foldl_cons, List.foldl_nil]
    unfold binStep
    rw [if_pos ⟨hlo, hhi⟩]
  rw [step2]
  rw [List.foldl_map]
  apply foldl_id_of_forall
  intro t ht
  rw [List.mem_range] at ht
  unfold binStep
  rw [if_neg]
  intro hc
  have : (binEdges err).getD (i + 1) 0 ≤ (binEdges err).getD (i + 1 + t) 0 :=
    binEdges_mono err (by omega) (by omega) hne
  linarith [hc.1]

theorem massFold_outside (err : List ErrRow) (m : ℚ)
    (h : m ≤ listMin (err.map (·.mass)) ∨ listMax (err.map (·.mass)) < m) :
    (List.range err.length).foldl (fun x j => binStep (binEdges err) err j x) m = m := by
  apply foldl_id_of_forall
  intro j hj
  rw [List.mem_range] at hj
  have hne : err ≠ [] := by
    intro he; rw [he] at hj; exact absurd hj (by simp)
  unfold binStep
  rw [if_neg]
  intro hc
  rcases h with h0 | h1
  · have hz : (binEdges err).getD 0 0 = listMin (err.map (·.mass)) :=
      linspace_getD_zero _ _ (Nat.succ_pos _)
    have : (binEdges err).getD 0 0 ≤ (binEdges err).getD j 0 :=
      binEdges_mono err (Nat.zero_le j) (by omega) hne
    rw [hz] at this
    linarith [hc.1]
  · have ht : (binEdges err).getD err.length 0 = listMax (err.map (·.mass)) := by
      unfold binEdges
      exact linspace_getD_top _ _ (by omega)
    have : (binEdges err).getD (j + 1) 0 ≤ (binEdges err).getD err.length 0 :=
      binEdges_mono err (by omega) (by omega) hne
    rw [ht] at this
    linarith [hc.2]

/-- C1 (amended): recallibrate partitions the curve's mass range [m0, m1] into
wide = (number of curve rows) half-open bins (a[i], a[i+1]] with linearly
spaced edges; a peak with m0 < m ≤ m1 whose bin-i corrected value
m + m * ppm[i] / 1e6 does not exceed the bin's right edge a[i+1] is changed
exactly once, to that value, while a peak whose correction crosses its bin's
right edge is corrected again by later bins (see the counterexample); peaks
with m ≤ m0 or m > m1 keep their mass unchanged. -/
theorem recallibrate_bin_coverage (err : List ErrRow) (tbl : List Peak) :
    (∀ k i, k < tbl.length → i < err.length →
      (binEdges err).getD i 0 < (tbl.getD k default).mass →
      (tbl.getD k default).mass ≤ (binEdges err).getD (i + 1) 0 →
      (tbl.getD k default).mass
          + (tbl.getD k default).mass * (err.getD i default).ppm / 1000000
        ≤ (binEdges err).getD (i + 1) 0 →
      ((recallibrateTable err tbl).getD k default).mass
        = (tbl.getD k default).mass
          + (tbl.getD k default).mass * (err.getD i default).ppm / 1000000)
  ∧ (∀ k, k < tbl.length →
      ((tbl.getD k default).mass ≤ listMin (err.map (·.mass))
        ∨ listMax (err.map (·.mass)) < (tbl.getD k default).mass) →
      ((recallibrateTable err tbl).getD k default).mass = (tbl.getD k default).mass) := by
  constructor
  · intro k i hk hi hlo hhi hstay
    rw [recallibrateTable_eq_map, getD_map_of_lt _ tbl k hk default default]
    exact massFold_in_bin err i hi _ hlo hhi hstay
  · intro k hk h
    rw [recallibrateTable_eq_map, getD_map_of_lt _ tbl k hk default default]
    exact massFold_outside err _ h

/-- C1 witness: with the curve {(100, 5), (200, -5)} the bins are (100, 150]
and (150, 200]; the peak at 120 is corrected once in bin 0 to 120.0006, and
the peak at 250 lies above the curve range and is unchanged. -/
theorem recallibrate_bin_coverage_witness :
    ((recallibrateTable [⟨100, 5⟩, ⟨200, -5⟩] [⟨120, 1⟩]).getD 0 default).mass
        = 120 + 120 * 5 / 1000000
  ∧ ((recallibrateTable [⟨100, 5⟩, ⟨200, -5⟩] [⟨250, 1⟩]).getD 0 default).mass = 250 := by
  constructor
  · have h := (recallibrate_bin_coverage [⟨100, 5⟩, ⟨200, -5⟩] [⟨120, 1⟩]).1 0 0
      (by norm_num) (by norm_num)
      (by norm_num [binEdges, linspace, listMin, listMax, List.range_succ])
      (by norm_num [binEdges, linspace, listMin, listMax, List.range_succ])
      (by norm_num [binEdges, linspace, listMin, listMax, List.range_succ])
    simpa using h
  · have h := (recallibrate_bin_coverage [⟨100, 5⟩, ⟨200, -5⟩] [⟨250, 1⟩]).2 0
      (by norm_num) (by norm_num [listMin, listMax])
    simpa using h

/-- C1 counterexample: the claim's "changed exactly once" fails on the code.
With the curve {(100, 10000), (300, 10000)} the bins are (100, 200] and
(200, 300]; the peak at 199 lies in bin 0 and the claim predicts the final
mass 199 + 199 * 10000 / 1e6 = 200.99, but the bin-0 correction moves it to
200.99 inside bin 1, where the loop corrects it a second time to 202.9999. -/
theorem recallibrate_double_correction_cex :
    (recallibrateTable [⟨100, 10000⟩, ⟨300, 10000⟩] [⟨199, 1⟩]).map (·.mass) = [202.9999]
  ∧ (202.9999 : ℚ) ≠ 199 + 199 * 10000 / 1000000 := by
  constructor
  · norm_num [recallibrateTable, binEdges, linspace, listMin, listMax, binStep,
      List.range_succ]
  · norm_num

theorem searchsorted_eq_length (l : List ℚ) (x : ℚ) (h : ∀ y ∈ l, y < x) :
    searchsorted l x = l.length := by
  induction l with
  | nil => rfl
  | cons a t ih =>
    unfold searchsorted
    rw [if_pos (h a (by simp)), ih (fun y hy => h y (by simp [hy]))]
    rfl

/-- C4: extrapolate builds a fresh 100-row curve whose mass axis is
np.linspace over the target range (the curve's own mass range when none is
given) and whose ppm values come from piecewise-linear interpolation of the
source rows; for an evaluation point below every source mass the value is the
linear extension of the first segment, and above every source mass the linear
extension of the last segment — not a clamp to the boundary value.  The
source table is a value in this embedding and is left intact. -/
theorem extrapolate_spec (pts : List ErrRow) (r0 r1 : ℚ) (h2 : 2 ≤ pts.length) :
    (extrapolate pts (some (r0, r1))).length = 100
  ∧ (extrapolate pts (some (r0, r1))).map (·.mass) = linspace r0 r1 100
  ∧ (∀ j, j < 100 → (extrapolate pts (some (r0, r1))).getD j default
        = ⟨(linspace r0 r1 100).getD j 0, interpEval pts ((linspace r0 r1 100).getD j 0)⟩)
  ∧ extrapolate pts none
      = extrapolate pts (some (listMin (pts.map (·.mass)), listMax (pts.map (·.mass))))
  ∧ (∀ x, (∀ y ∈ pts.map (·.mass), x < y) →
      interpEval pts x
        = (pts.getD 0 default).ppm
          + ((pts.getD 1 default).ppm - (pts.getD 0 default).ppm)
            / ((pts.getD 1 default).mass - (pts.getD 0 default).mass)
            * (x - (pts.getD 0 default).mass))
  ∧ (∀ x, (∀ y ∈ pts.map (·.mass), y < x) →
      interpEval pts x
        = (pts.getD (pts.length - 2) default).ppm
          + ((pts.getD (pts.length - 1) default).ppm
              - (pts.getD (pts.length - 2) default).ppm)
            / ((pts.getD (pts.length - 1) default).mass
              - (pts.getD (pts.length - 2) default).mass)
            * (x - (pts.getD (pts.length - 2) default).mass)) := by
  refine ⟨?_, ?_, ?_, rfl, ?_, ?_⟩
  · simp [extrapolate, linspace_length]
  · simp only [extrapolate, List.map_map]
    exact List.map_id _
  · intro j hj
    have hlen : j < (linspace r0 r1 100).length := by rw [linspace_length]; exact hj
    simp only [extrapolate]
    rw [getD_map_of_lt _ _ j hlen 0 default]
  · intro x hx
    cases pts with
    | nil => simp at h2
    | cons p0 t =>
      cases t with
      | nil => simp at h2
      | cons p1 rest =>
        have hss : searchsorted ((p0 :: p1 :: rest).map (·.mass)) x = 0 := by
          rw [List.map_cons]
          unfold searchsorted
          rw [if_neg (not_lt.mpr (le_of_lt (hx p0.mass (by simp))))]
        simp only [interpEval, hss]
        have hidx : min (max 0 1) (((p0 :: p1 :: rest).map (·.mass)).length - 1) = 1 := by
          simp
        rw [hidx]
        simp
        ring
  · intro x hx
    have hss : searchsorted (pts.map (·.mass)) x = pts.length := by
      rw [searchsorted_eq_length _ x hx, List.length_map]
    simp only [interpEval, hss]
    have hidx : min (max pts.length 1) ((pts.map (·.mass)).length - 1) = pts.length - 1 := by
      rw [List.length_map]
      omega
    rw [hidx]
    have hsub : pts.length - 1 - 1 = pts.length - 2 := by omega
    rw [hsub]
    ring

/-- C4 witness: for the two-point curve (0,0), (1,2) the extrapolated table
has 100 rows and the value at x = 5, far beyond the source domain, is the
linear extension 10 of the last segment (slope 2), not the clamp value 2. -/
theorem extrapolate_spec_witness :
    (extrapolate [⟨0, 0⟩, ⟨1, 2⟩] (some (0, 1))).length = 100
  ∧ interpEval [⟨0, 0⟩, ⟨1, 2⟩] 5 = 10 := by
  constructor
  · exact (extrapolate_spec [⟨0, 0⟩, ⟨1, 2⟩] 0 1 (by norm_num)).1
  · have h := (extrapolate_spec [⟨0, 0⟩, ⟨1, 2⟩] 0 1 (by norm_num)).2.2.2.2.2 5
      (by intro y hy; simp at hy; rcases hy with rfl | rfl <;> norm_num)
    norm_num at h
    exact h

/-- C7: zeroshift returns a fresh table of the same length and masses in which
every ppm value is the original one minus the mean relative error of the
reference spectrum's assigned, non-dropped peaks; the embedding's value
semantics reflect the deepcopy the source takes before mutating. -/
theorem zeroshift_spec (ops : SpecOps) (tbl : List ErrRow) (spec : Spectrum) :
    (zeroshift ops tbl spec).length = tbl.length
  ∧ (zeroshift ops tbl spec).map (·.mass) = tbl.map (·.mass)
  ∧ ∀ k, k < tbl.length →
      (zeroshift ops tbl spec).getD k default
        = ⟨(tbl.getD k default).mass,
           (tbl.getD k default).ppm
             - listMean (ops.relError (ops.calcError (ops.dropUnassigned spec)))⟩ := by
  refine ⟨by simp [zeroshift], ?_, ?_⟩
  · simp only [zeroshift, List.map_map]
    rfl
  · intro k hk
    simp only [zeroshift]
    rw [getD_map_of_lt _ tbl k hk default default]

/-- C7 witness: shifting the one-row table (1, 2) against an empty reference
spectrum under the trivial collaborators subtracts the mean 0. -/
theorem zeroshift_spec_witness :
    (zeroshift trivialSpecOps [⟨1, 2⟩] ⟨[], []⟩).getD 0 default
      = ⟨1, 2 - listMean (trivialSpecOps.relError
          (trivialSpecOps.calcError (trivialSpecOps.dropUnassigned ⟨[], []⟩)))⟩ := by
  have h := (zeroshift_spec trivialSpecOps [⟨1, 2⟩] ⟨[], []⟩).2.2 0 (by norm_num)
  simpa using h

/-- C5: assign_error post-processes the ridge curve by extrapolating it to the
input spectrum's full observed mass range and then zero-shifting it against
the assigned spectrum, while massdiff_error returns the ridge-extracted curve
as is, with neither extrapolation nor zero-shift applied. -/
theorem assign_vs_massdiff_postprocessing (ops : SpecOps)
    (kde : List (ℚ × ℚ) → List (List ℚ)) (savgol : List ℚ → List ℚ)
    (dif : List ℚ) (spec spec2 : Spectrum) :
    assign_error ops kde savgol spec
      = (kernel_density_map kde
          ((ops.errorScatter (ops.calcError (ops.calcMass (ops.assign spec)))).map
            (fun p => (p.1, -p.2)))).map
          (fun kdm =>
            ErrorTable.mk (zeroshift ops
              (extrapolate
                (fit_kernel savgol kdm
                  (((ops.dropUnassigned
                      (ops.calcError (ops.calcMass (ops.assign spec)))).table).map (·.mass)))
                (some (listMin (spec.table.map (·.mass)),
                       listMax (spec.table.map (·.mass)))))
              (ops.calcError (ops.calcMass (ops.assign spec)))))
  ∧ massdiff_error kde savgol dif spec2
      = (kernel_density_map kde (md_error_map dif spec2 3)).map
          (fun kdm => ErrorTable.mk (fit_kernel savgol kdm (spec2.table.map (·.mass)))) := by
  constructor
  · unfold assign_error
    rcases hh : kernel_density_map kde
        ((ops.errorScatter (ops.calcError (ops.calcMass (ops.assign spec)))).map
          (fun p => (p.1, -p.2))) with e | kdm <;>
      simp [hh, Except.map]
  · unfold massdiff_error
    rcases hh : kernel_density_map kde (md_error_map dif spec2 3) with e | kdm <;>
      simp [hh, Except.map]

/-- C9: when the scatter handed to the density-map builder is degenerate the
pipeline fails — InsufficientDataError for fewer than 2 points, and
InvalidRangeError for an all-equal mass column — and the error propagates
unchanged to the caller of the top-level recallibrate entry point, with no
fallback to an identity correction. -/
theorem kdm_failure_propagation (c : Collab) (spec : Spectrum) :
    ((md_error_map c.dif spec 3).length < 2 →
      recallibrate c spec none "mdm" = .error .insufficientData)
  ∧ (2 ≤ (md_error_map c.dif spec 3).length →
      listMin ((md_error_map c.dif spec 3).map (·.1))
        = listMax ((md_error_map c.dif spec 3).map (·.1)) →
      recallibrate c spec none "mdm" = .error .invalidRange) := by
  constructor
  · intro h
    have hk : kernel_density_map c.kde (md_error_map c.dif spec 3)
        = .error .insufficientData := by
      unfold kernel_density_map
      rw [if_pos h]
    simp [recallibrate, massdiff_error, hk]
  · intro h2 heq
    have hk : kernel_density_map c.kde (md_error_map c.dif spec 3)
        = .error .invalidRange := by
      unfold kernel_density_map
      rw [if_neg (by omega), if_pos heq]
    simp [recallibrate, massdiff_error, hk]

/-- C9 witness: with an empty difference set the matcher produces an empty
scatter and recallibrate fails with InsufficientDataError; with the
difference set {0} on two peaks at the same mass the scatter has two points at
one mass and recallibrate fails with InvalidRangeError. -/
theorem kdm_failure_propagation_witness :
    recallibrate trivialCollab ⟨[⟨100, 1⟩], []⟩ none "mdm"
        = .error .insufficientData
  ∧ recallibrate zeroDifCollab ⟨[⟨100, 1⟩, ⟨100, 2⟩], []⟩ none "mdm"
        = .error .invalidRange := by
  constructor
  · exact (kdm_failure_propagation trivialCollab ⟨[⟨100, 1⟩], []⟩).1
      (by norm_num [trivialCollab, md_error_map, mdCandidates, List.insertionSort,
        List.orderedInsert])
  · have hval : md_error_map zeroDifCollab.dif ⟨[⟨100, 1⟩, ⟨100, 2⟩], []⟩ 3
        = [(100, 0), (100, 0)] := by
      norm_num [zeroDifCollab, md_error_map, mdCandidates, List.insertionSort,
        List.orderedInsert, nearestIdx, searchsorted]
    exact (kdm_failure_propagation zeroDifCollab ⟨[⟨100, 1⟩, ⟨100, 2⟩], []⟩).2
      (by rw [hval]; norm_num)
      (by rw [hval]; norm_num [listMin, listMax])

theorem getD_zip_zero {l1 l2 : List ℚ} (h1 : 0 < l1.length) (h2 : 0 < l2.length) :
    (l1.zip l2).getD 0 (0, 0) = (l1.getD 0 0, l2.getD 0 0) := by
  cases l1 with
  | nil => simp at h1
  | cons a t1 =>
    cases l2 with
    | nil => simp at h2
    | cons b t2 => rfl

/-- C6: the ridge-extracted curve has exactly 100 rows (one per grid column),
its mass column is np.linspace(min mass, max mass, 100), and its first ppm
value is exactly zero because the first curve value is subtracted from the
whole ppm column after smoothing.  The smoothing filter (scipy savgol_filter)
is abstracted by any length-preserving function. -/
theorem fit_kernel_shape (savgol : List ℚ → List ℚ) (f : List (List ℚ)) (mass : List ℚ)
    (hc : f.transpose.length = 100) (hsav : ∀ l, (savgol l).length = l.length) :
    (fit_kernel savgol f mass).length = 100
  ∧ (fit_kernel savgol f mass).map (·.mass) = linspace (listMin mass) (listMax mass) 100
  ∧ ((fit_kernel savgol f mass).getD 0 default).ppm = 0 := by
  have hsm : (savgol (f.transpose.map (ridgeCol (linspace 3 (-3) 100)))).length = 100 := by
    rw [hsav, List.length_map, hc]
  have hms : (linspace (listMin mass) (listMax mass) 100).length = 100 :=
    linspace_length _ _ _
  refine ⟨?_, ?_, ?_⟩
  · simp only [fit_kernel]
    rw [List.length_map, List.length_zip, List.length_map, hsm, hms]
    exact min_self 100
  · simp only [fit_kernel]
    rw [List.map_map]
    exact List.map_fst_zip _ _ (by rw [List.length_map, hsm, hms])
  · simp only [fit_kernel]
    have hzlen : 0 < ((linspace (listMin mass) (listMax mass) 100).zip
        ((savgol (f.transpose.map (ridgeCol (linspace 3 (-3) 100)))).map
          (fun v => v - (savgol (f.transpose.map (ridgeCol (linspace 3 (-3) 100)))).getD 0 0))).length := by
      rw [List.length_zip, List.length_map, hsm, hms]
      norm_num
    have h0 : (0 : ℕ) < (savgol (f.transpose.map (ridgeCol (linspace 3 (-3) 100)))).length := by
      rw [hsm]; norm_num
    rw [getD_map_of_lt _ _ 0 hzlen (0, 0) default]
    rw [getD_zip_zero (by rw [hms]; norm_num) (by rw [List.length_map, hsm]; norm_num)]
    show ((savgol (f.transpose.map (ridgeCol (linspace 3 (-3) 100)))).map
        (fun v => v - (savgol (f.transpose.map (ridgeCol (linspace 3 (-3) 100)))).getD 0 0)).getD 0 0 = 0
    rw [getD_map_of_lt _ _ 0 h0 0 0]
    exact sub_self _

/-- C6 witness: a 1x100 zero grid gives 100 one-element density columns; with
the identity in place of the smoothing filter the curve has 100 rows and its
first ppm value is zero. -/
theorem fit_kernel_shape_witness :
    (fit_kernel id [List.replicate 100 (0 : ℚ)] [1, 2]).length = 100
  ∧ ((fit_kernel id [List.replicate 100 (0 : ℚ)] [1, 2]).getD 0 default).ppm = 0 := by
  have h := fit_kernel_shape id [List.replicate 100 (0 : ℚ)] [1, 2]
    (by rfl) (fun l => rfl)
  exact ⟨h.1, h.2.2⟩

theorem foldl_eq_append_flatMap {α β : Type} (f : List α → β → List α) (g : β → List α)
    (hf : ∀ a x, f a x = a ++ g x) (l : List β) (a : List α) :
    l.foldl f a = a ++ l.flatMap g := by
  induction l generalizing a with
  | nil => simp
  | cons x l ih =>
    rw [List.foldl_cons, hf, ih, List.flatMap_cons, List.append_assoc]

theorem searchsorted_le_length (l : List ℚ) (x : ℚ) : searchsorted l x ≤ l.length := by
  induction l with
  | nil => exact Nat.le_refl 0
  | cons a t ih =>
    unfold searchsorted
    by_cases h : a < x
    · rw [if_pos h]
      simpa using ih
    · rw [if_neg h]
      exact Nat.zero_le _

theorem getD_lt_of_lt_searchsorted (l : List ℚ) (x : ℚ) {j : ℕ}
    (hj : j < searchsorted l x) : l.getD j 0 < x := by
  induction l generalizing j with
  | nil => exact absurd hj (by simp [searchsorted])
  | cons a t ih =>
    unfold searchsorted at hj
    by_cases h : a < x
    · rw [if_pos h] at hj
      cases j with
      | zero => simpa using h
      | succ j2 => exact ih (by omega)
    · rw [if_neg h] at hj
      exact absurd hj (by omega)

theorem le_getD_searchsorted (l : List ℚ) (x : ℚ)
    (h : searchsorted l x < l.length) : x ≤ l.getD (searchsorted l x) 0 := by
  induction l with
  | nil => simp [searchsorted] at h
  | cons a t ih =>
    have hdef : searchsorted (a :: t) x
        = if a < x then searchsorted t x + 1 else 0 := rfl
    by_cases ha : a < x
    · have hss : searchsorted (a :: t) x = searchsorted t x + 1 := by
        rw [hdef, if_pos ha]
      rw [hss]
      rw [hss] at h
      exact ih (by simpa using h)
    · have hss : searchsorted (a :: t) x = 0 := by
        rw [hdef, if_neg ha]
      rw [hss]
      simpa using not_lt.mp ha

theorem sorted_getD_mono (l : List ℚ) (hs : l.Pairwise (· ≤ ·)) {i j : ℕ}
    (hij : i ≤ j) (hj : j < l.length) : l.getD i 0 ≤ l.getD j 0 := by
  rcases Nat.eq_or_lt_of_le hij with rfl | hlt
  · exact le_refl _
  · rw [List.getD_eq_getElem _ _ (lt_trans hlt hj), List.getD_eq_getElem _ _ hj]
    exact List.pairwise_iff_get.mp hs ⟨i, lt_trans hlt hj⟩ ⟨j, hj⟩ hlt

theorem nearestIdx_min_dist (masses : List ℚ) (hs : masses.Pairwise (· ≤ ·)) (mz : ℚ)
    {j : ℕ} (hj : j < masses.length) :
    |masses.getD (nearestIdx masses mz) 0 - mz| ≤ |masses.getD j 0 - mz| := by
  have hle : searchsorted masses mz ≤ masses.length := searchsorted_le_length masses mz
  simp only [nearestIdx]
  set i0 := searchsorted masses mz with hi0
  by_cases hbranch : 0 < i0
      ∧ (i0 = masses.length ∨ |mz - masses.getD (i0 - 1) 0| < |mz - masses.getD i0 0|)
  · rw [if_pos hbranch]
    rcases Nat.lt_or_ge j i0 with hji | hji
    · have h1 : masses.getD j 0 ≤ masses.getD (i0 - 1) 0 :=
        sorted_getD_mono masses hs (by omega) (by omega)
      have h2 : masses.getD (i0 - 1) 0 < mz :=
        getD_lt_of_lt_searchsorted masses mz (by omega)
      have h3 : masses.getD j 0 < mz := lt_of_le_of_lt h1 h2
      rw [abs_of_neg (by linarith), abs_of_neg (by linarith)]
      linarith
    · have hi0n : i0 < masses.length := lt_of_le_of_lt hji hj
      have hclose : |mz - masses.getD (i0 - 1) 0| < |mz - masses.getD i0 0| := by
        rcases hbranch.2 with h | h
        · exact absurd h (by omega)
        · exact h
      have h4 : mz ≤ masses.getD i0 0 := le_getD_searchsorted masses mz hi0n
      have h5 : masses.getD i0 0 ≤ masses.getD j 0 := sorted_getD_mono masses hs hji hj
      have hstep : |masses.getD i0 0 - mz| ≤ |masses.getD j 0 - mz| := by
        rw [abs_of_nonneg (by linarith), abs_of_nonneg (by linarith)]
        linarith
      calc |masses.getD (i0 - 1) 0 - mz|
          = |mz - masses.getD (i0 - 1) 0| := abs_sub_comm _ _
        _ ≤ |mz - masses.getD i0 0| := le_of_lt hclose
        _ = |masses.getD i0 0 - mz| := abs_sub_comm _ _
        _ ≤ |masses.getD j 0 - mz| := hstep
  · rw [if_neg hbranch]
    rcases Nat.eq_zero_or_pos i0 with h0 | hpos
    · have h4 : mz ≤ masses.getD i0 0 := le_getD_searchsorted masses mz (by omega)
      have h5 : masses.getD i0 0 ≤ masses.getD j 0 :=
        sorted_getD_mono masses hs (by omega) hj
      rw [abs_of_nonneg (by linarith), abs_of_nonneg (by linarith)]
      linarith
    · have hner : ¬(i0 = masses.length
          ∨ |mz - masses.getD (i0 - 1) 0| < |mz - masses.getD i0 0|) := by
        intro hor
        exact hbranch ⟨hpos, hor⟩
      push_neg at hner
      obtain ⟨hne, hnotcloser⟩ := hner
      have hi0n : i0 < masses.length := lt_of_le_of_ne hle hne
      have h4 : mz ≤ masses.getD i0 0 := le_getD_searchsorted masses mz hi0n
      rcases Nat.lt_or_ge j i0 with hji | hji
      · have h1 : masses.getD j 0 ≤ masses.getD (i0 - 1) 0 :=
          sorted_getD_mono masses hs (by omega) (by omega)
        have h2 : masses.getD (i0 - 1) 0 < mz :=
          getD_lt_of_lt_searchsorted masses mz (by omega)
        have h3 : masses.getD j 0 < mz := lt_of_le_of_lt h1 h2
        calc |masses.getD i0 0 - mz|
            = |mz - masses.getD i0 0| := abs_sub_comm _ _
          _ ≤ |mz - masses.getD (i0 - 1) 0| := hnotcloser
          _ = mz - masses.getD (i0 - 1) 0 := abs_of_nonneg (by linarith)
          _ ≤ mz - masses.getD j 0 := by linarith
          _ = |masses.getD j 0 - mz| := by rw [abs_of_neg (by linarith)]; ring
      · have h5 : masses.getD i0 0 ≤ masses.getD j 0 := sorted_getD_mono masses hs hji hj
        rw [abs_of_nonneg (by linarith), abs_of_nonneg (by linarith)]
        linarith

set_option maxHeartbeats 2000000 in
/-- C2: for every candidate mass m of the (at most 1000 most intense,
mass-re-sorted) subset and every difference d of the deduplicated set, with
mz = m + d the matcher looks up the nearest observed mass by binary search
with the left-preferring tie-break, and emits (m, (matched - mz)/mz * 1e6)
exactly when |matched - mz|/mz * 1e6 ≤ ppm; moreover on a sorted observed-mass
array the looked-up index indeed minimises the distance to mz. -/
theorem md_error_map_characterization (dif : List ℚ) (spec : Spectrum) (ppm : ℚ)
    (hs : (spec.table.map (·.mass)).Pairwise (· ≤ ·)) :
    md_error_map dif spec ppm
      = (mdCandidates spec.table).flatMap (fun m =>
          dif.flatMap (fun d =>
            if |(spec.table.map (·.mass)).getD
                  (nearestIdx (spec.table.map (·.mass)) (m + d)) 0 - (m + d)|
                / (m + d) * 1000000 ≤ ppm
            then [(m, ((spec.table.map (·.mass)).getD
                  (nearestIdx (spec.table.map (·.mass)) (m + d)) 0 - (m + d))
                / (m + d) * 1000000)]
            else []))
  ∧ (∀ (mz : ℚ) (j : ℕ), j < (spec.table.map (·.mass)).length →
      |(spec.table.map (·.mass)).getD (nearestIdx (spec.table.map (·.mass)) mz) 0 - mz|
        ≤ |(spec.table.map (·.mass)).getD j 0 - mz|) := by
  constructor
  · simp only [md_error_map]
    have hinner : ∀ (m : ℚ) (acc : List (ℚ × ℚ)),
        dif.foldl (fun de2 d =>
          if |(spec.table.map (·.mass)).getD
                (nearestIdx (spec.table.map (·.mass)) (m + d)) 0 - (m + d)|
              / (m + d) * 1000000 ≤ ppm
          then de2 ++ [(m, ((spec.table.map (·.mass)).getD
                (nearestIdx (spec.table.map (·.mass)) (m + d)) 0 - (m + d))
              / (m + d) * 1000000)]
          else de2) acc
        = acc ++ dif.flatMap (fun d =>
            if |(spec.table.map (·.mass)).getD
                  (nearestIdx (spec.table.map (·.mass)) (m + d)) 0 - (m + d)|
                / (m + d) * 1000000 ≤ ppm
            then [(m, ((spec.table.map (·.mass)).getD
                  (nearestIdx (spec.table.map (·.mass)) (m + d)) 0 - (m + d))
                / (m + d) * 1000000)]
            else []) := by
      intro m acc
      apply foldl_eq_append_flatMap
      intro a2 d
      by_cases h : |(spec.table.map (·.mass)).getD
            (nearestIdx (spec.table.map (·.mass)) (m + d)) 0 - (m + d)|
          / (m + d) * 1000000 ≤ ppm
      · rw [if_pos h, if_pos h]
      · rw [if_neg h, if_neg h, List.append_nil]
    exact Eq.trans
      (foldl_eq_append_flatMap _ _ (fun a m => hinner m a) (mdCandidates spec.table) [])
      (List.nil_append _)
  · intro mz j hj
    generalize hl : spec.table.map (·.mass) = l at hs hj ⊢
    exact nearestIdx_min_dist l hs mz hj

/-- C2 witness: on the one-peak spectrum at mass 100 with the difference set
{0}, the matcher emits exactly the observation (100, 0), and the nearest index
for mz = 150 minimises the distance among the observed masses. -/
theorem md_error_map_characterization_witness :
    md_error_map [0] ⟨[⟨100, 1⟩], []⟩ 3 = [(100, 0)]
  ∧ |(([⟨100, 1⟩] : List Peak).map (·.mass)).getD
        (nearestIdx (([⟨100, 1⟩] : List Peak).map (·.mass)) 150) 0 - 150|
      ≤ |(([⟨100, 1⟩] : List Peak).map (·.mass)).getD 0 0 - 150| := by
  have h := md_error_map_characterization [0] ⟨[⟨100, 1⟩], []⟩ 3 (by simp)
  constructor
  · rw [h.1]
    norm_num [mdCandidates, List.insertionSort, List.orderedInsert, nearestIdx, searchsorted]
  · exact h.2 150 0 (by simp)

end Nhsmass
